import Mathlib

/-!
Verification of the AYABInterface module `old-designs/interface.py`
(classes NeedlePositions, ColorAdapter, ColorInterface) against its
natural-language specification.

Needle-position symbols and colors are opaque Python objects compared by
equality; we model them by a type parameter with decidable equality.
Row indices passed to `row_completed` are Python integers, modelled by `Int`.
Exceptions raised by observer callbacks are modelled by `String` payloads in
an `Except` result.
-/

namespace AYAB

/-- Machine profile: the set of valid needle-position symbols (modelled as a
list, since only membership is used) and the required number of needles per
row. Mirrors the `machine` argument of `NeedlePositions.__init__`. -/
structure Machine (α : Type) where
  needle_positions : List α
  number_of_needles : Nat

/-- The two validation failures raised by `NeedlePositions.check`. The source
raises `ValueError` with one of two message templates; we keep the data that
the messages carry. `rowLength` corresponds to `_ROW_LENGTH_ERROR_MESSAGE`
(the ShapeError of the spec): offending row index, observed length, expected
length. `needlePosition` corresponds to `_NEEDLE_POSITION_ERROR_MESSAGE`
(the SymbolError of the spec): offending row index, cell index, observed
value, and the full expected symbol set. -/
inductive CheckError (α : Type) where
  | rowLength (row_index : Nat) (observed : Nat) (expected : Nat)
  | needlePosition (row_index : Nat) (needle_index : Nat) (observed : α)
      (expected : List α)
deriving DecidableEq

/-- True when the error is the row-length kind (the ShapeError of the spec). -/
def CheckError.isRowLength : CheckError α → Bool
  | .rowLength _ _ _ => true
  | .needlePosition _ _ _ _ => false

/-- Inner loop of `NeedlePositions.check`: scan the cells of one row from
`needle_index` on and report the first cell not among the expected needle
positions. -/
def checkCells [DecidableEq α] (m : Machine α) (row_index : Nat)
    (needle_index : Nat) (cells : List α) : Except (CheckError α) Unit :=
  match cells with
  | [] => Except.ok ()
  | c :: rest =>
    if c ∈ m.needle_positions then
      checkCells m row_index (needle_index + 1) rest
    else
      Except.error (CheckError.needlePosition row_index needle_index c
        m.needle_positions)

/-- Outer loop of `NeedlePositions.check`: scan rows from `row_index` on;
for each row, first compare its length with `number_of_needles`, then scan
its cells. -/
def checkRows [DecidableEq α] (m : Machine α) (row_index : Nat)
    (rows : List (List α)) : Except (CheckError α) Unit :=
  match rows with
  | [] => Except.ok ()
  | row :: rest =>
    if row.length ≠ m.number_of_needles then
      Except.error (CheckError.rowLength row_index row.length
        m.number_of_needles)
    else
      match checkCells m row_index 0 row with
      | Except.error e => Except.error e
      | Except.ok () => checkRows m (row_index + 1) rest

/-- Observer callback registered through `on_row_completed`: it receives the
row index; it may read the completion log of the matrix at call time (passed
here explicitly, since a Python callback can query `completed_row_indices`),
and it may raise an exception, modelled by the `Except.error` case. -/
def Observer : Type := List Int → Int → Except String Unit

/-- The state of a `NeedlePositions` object: the validated rows, the machine,
the completion log `_completed_rows` and the observer list
`_on_row_completed`, in the order the fields are assigned in `__init__`. -/
structure NeedlePositions (α : Type) where
  rows : List (List α)
  machine : Machine α
  completed_rows : List Int
  observers : List Observer

/-- Method `NeedlePositions.check`: validate `self._rows` against
`self._machine`, raising the first violation found. -/
def NeedlePositions.check [DecidableEq α] (np : NeedlePositions α) :
    Except (CheckError α) Unit :=
  checkRows np.machine 0 np.rows

/-- Constructor `NeedlePositions.__init__`: store the rows and the machine,
initialize the completion log and the observer list to empty, then run
`check`, propagating its error if any. -/
def NeedlePositions.construct [DecidableEq α] (rows : List (List α))
    (machine : Machine α) : Except (CheckError α) (NeedlePositions α) :=
  let np : NeedlePositions α := ⟨rows, machine, [], []⟩
  match np.check with
  | Except.error e => Except.error e
  | Except.ok () => Except.ok np

/-- Argument passed as the `index` of `get_row`: a Python int, or a value of
any non-int type (which `isinstance(index, int)` rejects wholesale). -/
inductive PyIndex where
  | int (i : Int)
  | notInt

/-- Method `NeedlePositions.get_row`: return the row at `index`, or the
caller-supplied default when `index` is not an int, is negative, or is not
below the row count. Total: it never raises. -/
def NeedlePositions.get_row (np : NeedlePositions α) (index : PyIndex)
    (default : List α) : List α :=
  match index with
  | PyIndex.notInt => default
  | PyIndex.int i =>
    if i < 0 ∨ (np.rows.length : Int) ≤ i then default
    else (np.rows.get? i.toNat).getD default

/-- Record of one observer invocation made by `row_completed`: the position
of the observer in the registration list, the completion log the callback can
see through `completed_row_indices` at that moment, and the index argument it
is called with. -/
structure ObserverCall where
  observer_index : Nat
  visible_log : List Int
  arg : Int
deriving DecidableEq

/-- The `for` loop of `row_completed`: call each observer in list order with
the index, stopping at (and propagating) the first exception. Returns the
trace of invocations actually made together with the outcome; `pos` is the
registration position of the first observer in `obs`. -/
def notifyAll (obs : List Observer) (log : List Int) (i : Int) (pos : Nat) :
    List ObserverCall × Except String Unit :=
  match obs with
  | [] => ([], Except.ok ())
  | o :: rest =>
    match o log i with
    | Except.error e => ([⟨pos, log, i⟩], Except.error e)
    | Except.ok () =>
      let r := notifyAll rest log i (pos + 1)
      (⟨pos, log, i⟩ :: r.1, r.2)

/-- Method `NeedlePositions.row_completed`: append `index` to
`_completed_rows` unconditionally, then notify the observers in registration
order. Returns the new state, the trace of observer invocations, and the
outcome (an observer exception propagates; the append is never rolled back).
-/
def NeedlePositions.row_completed (np : NeedlePositions α) (index : Int) :
    NeedlePositions α × List ObserverCall × Except String Unit :=
  let np2 : NeedlePositions α := { np with
    completed_rows := np.completed_rows ++ [index] }
  let r := notifyAll np.observers np2.completed_rows index 0
  (np2, r.1, r.2)

/-- Property `NeedlePositions.completed_row_indices`: the completion log.
The source returns `self._completed_rows.copy()`; on immutable lists the
copy is the identity. -/
def NeedlePositions.completed_row_indices (np : NeedlePositions α) :
    List Int :=
  np.completed_rows

/-- Method `NeedlePositions.on_row_completed`: append an observer to the
observer list. -/
def NeedlePositions.on_row_completed (np : NeedlePositions α)
    (callback : Observer) : NeedlePositions α :=
  { np with observers := np.observers ++ [callback] }

/-- Register a list of observers one by one through `on_row_completed`, in
list order. -/
def NeedlePositions.register_all (np : NeedlePositions α)
    (obs : List Observer) : NeedlePositions α :=
  obs.foldl NeedlePositions.on_row_completed np

/-- State reached after a sequence of `row_completed` calls, one per list
entry, in order (each call keeps the returned state and drops the trace). -/
def NeedlePositions.row_completed_all (np : NeedlePositions α)
    (indices : List Int) : NeedlePositions α :=
  indices.foldl (fun s i => (s.row_completed i).1) np

/-- Holds when every call in the sequence of `row_completed` calls returns
without an exception. -/
def NeedlePositions.allCallsOk (np : NeedlePositions α) :
    List Int → Prop
  | [] => True
  | i :: rest =>
    (np.row_completed i).2.2 = Except.ok () ∧
      ((np.row_completed i).1.allCallsOk rest)

/-- Error raised by the ColorAdapter constructor. Modelled from the spec:
the source body of `ColorAdapter.__init__` is empty; the spec names the
failure `ShapeError` when the color rows and the produced needle rows do not
have the same shape. -/
inductive AdapterError where
  | shape
deriving DecidableEq

/-- State of a `ColorAdapter`: the color rows (colors of type β, opaque,
compared by equality), the machine, and the underlying NeedlePositions
object. Modelled from the spec: the source class body holds only docstrings.
-/
structure ColorAdapter (α β : Type) where
  color_rows : List (List β)
  machine : Machine α
  needle_positions : NeedlePositions α

/-- Constructor of `ColorAdapter`. Modelled from the spec: the source body of
`ColorAdapter.__init__` is empty. The factory `new_needle_positions` produces
the NeedlePositions object; construction fails with a ShapeError exactly when
the shape of `color_rows` (row count and per-row lengths) differs from the
shape of the produced needle rows; contents are never compared. -/
def ColorAdapter.construct (color_rows : List (List β)) (machine : Machine α)
    (new_needle_positions : Unit → NeedlePositions α) :
    Except AdapterError (ColorAdapter α β) :=
  let np := new_needle_positions ()
  if color_rows.map List.length = np.rows.map List.length then
    Except.ok ⟨color_rows, machine, np⟩
  else
    Except.error AdapterError.shape

/-- Property `ColorAdapter.progress`. Modelled from the spec: the source body
is empty. A fresh boolean matrix of exactly the shape of `color_rows`: cell
(i, j) is true iff row index i occurs in the completion log of the underlying
NeedlePositions object at the time of the call; completed indices outside
the shape are ignored. -/
def ColorAdapter.progress (ca : ColorAdapter α β) : List (List Bool) :=
  ca.color_rows.enum.map (fun p =>
    p.2.map (fun _ =>
      decide ((p.1 : Int) ∈ ca.needle_positions.completed_rows)))

/-- Adapter state after a sequence of row-completion events on the underlying
NeedlePositions object. -/
def ColorAdapter.row_completed_all (ca : ColorAdapter α β)
    (indices : List Int) : ColorAdapter α β :=
  { ca with needle_positions := ca.needle_positions.row_completed_all indices }

/-- State of a `ColorInterface` session. Modelled from the spec: the source
stores `_configuration` and `_communication` and leaves the derived views
empty. The configuration carries the color rows of the pattern with colors
given as positive integer color codes (the source docstring types
`current_row` as a list of int colors); `index_of_current_row` is the
hardware-driven current row index and `knit` the per-needle completion state
of that row. The communication channel is opaque, of type χ. -/
structure ColorInterface (α χ : Type) where
  machine : Machine α
  color_rows : List (List Int)
  communication : χ
  index_of_current_row : Nat
  knit : List Bool

/-- Property `ColorInterface.current_row`. Modelled from the spec: the source
body is empty; the docstring says the row currently in progress is shown as
a list of colors, positive when knit and negative when not, the magnitude
always identifying the color. -/
def ColorInterface.current_row (ci : ColorInterface α χ) : List Int :=
  match ci.color_rows.get? ci.index_of_current_row with
  | none => []
  | some row => row.enum.map (fun p =>
      if ci.knit.getD p.1 false then p.2 else -p.2)

section CheckLemmas

variable {α : Type} [DecidableEq α]

/-- The cell scan succeeds exactly when every cell is an expected needle
position. -/
theorem checkCells_ok_iff (m : Machine α) (ri ni : Nat) (cells : List α) :
    checkCells m ri ni cells = Except.ok () ↔
      ∀ c ∈ cells, c ∈ m.needle_positions := by
  induction cells generalizing ni with
  | nil => simp [checkCells]
  | cons c rest ih =>
    by_cases hc : c ∈ m.needle_positions
    · simp [checkCells, hc, ih]
    · simp [checkCells, hc]

/-- When the cell scan fails, the error names this row, the position of the
first offending cell (offset by the starting needle index), its value, and
the full expected set; all earlier cells are valid. -/
theorem checkCells_error_spec (m : Machine α) (ri ni : Nat) (cells : List α)
    (e : CheckError α) (h : checkCells m ri ni cells = Except.error e) :
    ∃ j v, e = CheckError.needlePosition ri (ni + j) v m.needle_positions ∧
      cells.get? j = some v ∧ v ∉ m.needle_positions ∧
      ∀ k, k < j → ∀ w, cells.get? k = some w → w ∈ m.needle_positions := by
  induction cells generalizing ni with
  | nil => simp [checkCells] at h
  | cons c rest ih =>
    by_cases hc : c ∈ m.needle_positions
    · rw [checkCells, if_pos hc] at h
      obtain ⟨j, v, he, hget, hv, hprev⟩ := ih (ni + 1) h
      refine ⟨j + 1, v, ?_, by simpa using hget, hv, ?_⟩
      · rw [he]; congr 1; omega
      · intro k hk w hw
        match k with
        | 0 => simp at hw; exact hw ▸ hc
        | k' + 1 => exact hprev k' (by omega) w (by simpa using hw)
    · rw [checkCells, if_neg hc] at h
      refine ⟨0, c, ?_, rfl, hc, by omega⟩
      simpa using (Except.error.inj h).symm

/-- The row scan succeeds exactly when every row has the expected length and
every cell is an expected needle position. -/
theorem checkRows_ok_iff (m : Machine α) (ri : Nat) (rows : List (List α)) :
    checkRows m ri rows = Except.ok () ↔
      ∀ row ∈ rows, row.length = m.number_of_needles ∧
        ∀ c ∈ row, c ∈ m.needle_positions := by
  induction rows generalizing ri with
  | nil => simp [checkRows]
  | cons row rest ih =>
    by_cases hl : row.length = m.number_of_needles
    · rw [checkRows, if_neg (by simpa using hl)]
      rcases he : checkCells m ri 0 row with e | u
      · simp only [List.mem_cons]
        constructor
        · intro h; exact absurd h (by simp)
        · intro h
          have : row.length = m.number_of_needles ∧
              ∀ c ∈ row, c ∈ m.needle_positions := h row (Or.inl rfl)
          rw [← checkCells_ok_iff m ri 0 row] at this
          rw [this.2] at he
          exact absurd he (by simp)
      · simp only [List.mem_cons]
        rw [ih (ri + 1)]
        constructor
        · intro h r hr
          rcases hr with hr | hr
          · rw [hr]
            exact ⟨hl, (checkCells_ok_iff m ri 0 row).mp he⟩
          · exact h r hr
        · intro h r hr; exact h r (Or.inr hr)
    · rw [checkRows, if_pos (by simpa using hl)]
      constructor
      · intro h; exact absurd h (by simp)
      · intro h; exact absurd (h row (by simp)).1 hl

/-- When the row scan fails, the error describes the first violation in scan
order (rows in index order, each row checked for length before its cells):
all earlier rows are fully valid, and the error is either a row-length error
accurately citing this row, or a needle-position error accurately citing the
first offending cell of this row, which has the expected length. -/
theorem checkRows_error_spec (m : Machine α) (ri : Nat)
    (rows : List (List α)) (e : CheckError α)
    (h : checkRows m ri rows = Except.error e) :
    ∃ j row, rows.get? j = some row ∧
      (∀ k, k < j → ∃ rk, rows.get? k = some rk ∧
        rk.length = m.number_of_needles ∧
        ∀ c ∈ rk, c ∈ m.needle_positions) ∧
      ((row.length ≠ m.number_of_needles ∧
          e = CheckError.rowLength (ri + j) row.length
            m.number_of_needles) ∨
        (row.length = m.number_of_needles ∧
          ∃ c v, e = CheckError.needlePosition (ri + j) c v
              m.needle_positions ∧
            row.get? c = some v ∧ v ∉ m.needle_positions ∧
            ∀ k, k < c → ∀ w, row.get? k = some w →
              w ∈ m.needle_positions)) := by
  induction rows generalizing ri with
  | nil => simp [checkRows] at h
  | cons row rest ih =>
    by_cases hl : row.length = m.number_of_needles
    · rw [checkRows, if_neg (by simpa using hl)] at h
      rcases he : checkCells m ri 0 row with e2 | u
      · rw [he] at h
        obtain ⟨j, v, hev, hget, hv, hprev⟩ :=
          checkCells_error_spec m ri 0 row e2 he
        refine ⟨0, row, rfl, by omega, Or.inr ⟨hl, j, v, ?_, hget, hv,
          fun k hk w hw => hprev k hk w hw⟩⟩
        rw [(Except.error.inj h).symm, hev]
        simp
      · rw [he] at h
        rcases u with ⟨⟩
        obtain ⟨j, rowj, hget, hprevrows, hcase⟩ := ih (ri + 1) h
        refine ⟨j + 1, rowj, by simpa using hget, ?_, ?_⟩
        · intro k hk
          match k with
          | 0 =>
            exact ⟨row, rfl, hl, (checkCells_ok_iff m ri 0 row).mp he⟩
          | k' + 1 =>
            obtain ⟨rk, h1, h2, h3⟩ := hprevrows k' (by omega)
            exact ⟨rk, by simpa using h1, h2, h3⟩
        · have harith : ri + 1 + j = ri + (j + 1) := by omega
          rw [harith] at hcase
          exact hcase
    · rw [checkRows, if_pos (by simpa using hl)] at h
      refine ⟨0, row, rfl, by omega, Or.inl ⟨hl, ?_⟩⟩
      simpa using (Except.error.inj h).symm

end CheckLemmas

/-- Claim C1, counterexample. The claim says construction fails with a
ShapeError (row-length error) whenever some row length differs from
number_of_needles. With machine positions A, B and 2 needles, the pattern
with rows [A, C] and [B] has a row of length 1 ≠ 2, yet construction raises
the SymbolError (needle-position error) for cell 1 of row 0, not a
ShapeError: the scan reaches the invalid cell of row 0 before the short
row 1. -/
theorem needle_positions_construct_counterexample :
    List.length ["B"] ≠ (⟨["A", "B"], 2⟩ : Machine String).number_of_needles ∧
    NeedlePositions.construct [["A", "C"], ["B"]]
        (⟨["A", "B"], 2⟩ : Machine String) =
      Except.error (CheckError.needlePosition 0 1 "C" ["A", "B"]) ∧
    CheckError.isRowLength
      (CheckError.needlePosition 0 1 "C" (["A", "B"] : List String)) =
      false := by
  exact ⟨by decide, rfl, rfl⟩

/-- Claim C1, amended. Constructing a NeedlePositions matrix succeeds iff
every row has length number_of_needles and every cell is in needle_positions;
on success the matrix holds the given rows with an empty completion log and
an empty observer list. When construction fails, the error describes the
first violation in scan order (rows in index order, each row checked for
length before cells): either a ShapeError accurately citing the offending
row index with its observed and expected lengths, or a SymbolError
accurately citing the offending row index, cell index and observed value
(not in needle_positions) together with the full expected symbol set, with
all earlier rows and cells valid. -/
theorem needle_positions_construct_validates {α : Type} [DecidableEq α]
    (rows : List (List α)) (m : Machine α) :
    ((∃ np, NeedlePositions.construct rows m = Except.ok np) ↔
      ∀ row ∈ rows, row.length = m.number_of_needles ∧
        ∀ c ∈ row, c ∈ m.needle_positions) ∧
    (∀ np, NeedlePositions.construct rows m = Except.ok np →
      np.rows = rows ∧ np.machine = m ∧ np.completed_rows = [] ∧
        np.observers = []) ∧
    (∀ e, NeedlePositions.construct rows m = Except.error e →
      ∃ j row, rows.get? j = some row ∧
        (∀ k, k < j → ∃ rk, rows.get? k = some rk ∧
          rk.length = m.number_of_needles ∧
          ∀ c ∈ rk, c ∈ m.needle_positions) ∧
        ((row.length ≠ m.number_of_needles ∧
            e = CheckError.rowLength j row.length m.number_of_needles) ∨
          (row.length = m.number_of_needles ∧
            ∃ ci v, e = CheckError.needlePosition j ci v
                m.needle_positions ∧
              row.get? ci = some v ∧ v ∉ m.needle_positions ∧
              ∀ k, k < ci → ∀ w, row.get? k = some w →
                w ∈ m.needle_positions))) := by
  rcases h : checkRows m 0 rows with e0 | u
  · have hc : NeedlePositions.construct rows m = Except.error e0 := by
      simp [NeedlePositions.construct, NeedlePositions.check, h]
    refine ⟨?_, ?_, ?_⟩
    · constructor
      · rintro ⟨np, hnp⟩
        rw [hc] at hnp
        exact absurd hnp (by simp)
      · intro hv
        rw [← checkRows_ok_iff m 0 rows] at hv
        exact absurd (h.symm.trans hv) (by simp)
    · intro np hnp
      rw [hc] at hnp
      exact absurd hnp (by simp)
    · intro e he
      rw [hc] at he
      have hee : e0 = e := Except.error.inj he
      obtain ⟨j, row, hget, hprev, hcase⟩ :=
        checkRows_error_spec m 0 rows e0 h
      rw [← hee]
      exact ⟨j, row, hget, hprev, by simpa using hcase⟩
  · have hc : NeedlePositions.construct rows m =
        Except.ok ⟨rows, m, [], []⟩ := by
      simp [NeedlePositions.construct, NeedlePositions.check, h]
    refine ⟨?_, ?_, ?_⟩
    · constructor
      · intro _
        exact (checkRows_ok_iff m 0 rows).mp h
      · intro _
        exact ⟨_, hc⟩
    · intro np hnp
      rw [hc] at hnp
      rw [← Except.ok.inj hnp]
      exact ⟨rfl, rfl, rfl, rfl⟩
    · intro e he
      rw [hc] at he
      exact absurd he (by simp)

/-- Witness for the amended claim C1: the scenario pattern from the spec
(rows [A, B] and [B, A] on a machine with positions A, B and 2 needles)
constructs successfully, with an empty completion log and an empty observer
list. -/
theorem needle_positions_construct_validates_witness :
    (⟨[["A", "B"], ["B", "A"]], ⟨["A", "B"], 2⟩, [], []⟩ :
        NeedlePositions String).completed_rows = [] ∧
    (⟨[["A", "B"], ["B", "A"]], ⟨["A", "B"], 2⟩, [], []⟩ :
        NeedlePositions String).observers = [] := by
  have h := ((needle_positions_construct_validates [["A", "B"], ["B", "A"]]
      (⟨["A", "B"], 2⟩ : Machine String)).2.1)
    ⟨[["A", "B"], ["B", "A"]], ⟨["A", "B"], 2⟩, [], []⟩ rfl
  exact ⟨h.2.2.1, h.2.2.2⟩

/-- A successful construction returns exactly the state built in `__init__`:
the given rows and machine, empty completion log, empty observer list. -/
theorem construct_ok_state {α : Type} [DecidableEq α] (rows : List (List α))
    (m : Machine α) (np : NeedlePositions α)
    (h : NeedlePositions.construct rows m = Except.ok np) :
    np = ⟨rows, m, [], []⟩ := by
  rcases hck : checkRows m 0 rows with e | u
  · simp [NeedlePositions.construct, NeedlePositions.check, hck] at h
  · simp [NeedlePositions.construct, NeedlePositions.check, hck] at h
    exact h.symm

/-- With no observers registered, a `row_completed` call raises nothing. -/
theorem row_completed_no_observers {α : Type} (np : NeedlePositions α)
    (h : np.observers = []) (i : Int) :
    (np.row_completed i).2.2 = Except.ok () := by
  simp [NeedlePositions.row_completed, h, notifyAll]

/-- With no observers registered, every call of a `row_completed` sequence
returns normally and the completion log accumulates the indices in call
order. -/
theorem row_completed_all_spec {α : Type} (np : NeedlePositions α)
    (h : np.observers = []) (indices : List Int) :
    np.allCallsOk indices ∧
      (np.row_completed_all indices).completed_rows =
        np.completed_rows ++ indices := by
  induction indices generalizing np with
  | nil => simp [NeedlePositions.allCallsOk, NeedlePositions.row_completed_all]
  | cons i rest ih =>
    have hstep : (np.row_completed i).1.observers = np.observers := rfl
    obtain ⟨h1, h2⟩ := ih (np.row_completed i).1 (hstep.trans h)
    refine ⟨⟨row_completed_no_observers np h i, h1⟩, ?_⟩
    have hrw : np.row_completed_all (i :: rest) =
        ((np.row_completed i).1).row_completed_all rest := rfl
    rw [hrw, h2]
    simp [NeedlePositions.row_completed]

/-- Claim C2: for every successfully constructed NeedlePositions matrix and
every finite sequence of `row_completed` calls — with any integer indices,
repeated or out of range — no call raises, and afterwards
`completed_row_indices` has exactly as many entries as there were calls,
equal to the sequence of passed indices in call order, duplicates
preserved. -/
theorem row_completed_log_fidelity {α : Type} [DecidableEq α]
    (rows : List (List α)) (m : Machine α) (np : NeedlePositions α)
    (indices : List Int)
    (h : NeedlePositions.construct rows m = Except.ok np) :
    np.allCallsOk indices ∧
      (np.row_completed_all indices).completed_row_indices = indices ∧
      (np.row_completed_all indices).completed_row_indices.length =
        indices.length := by
  have hnp := construct_ok_state rows m np h
  have hobs : np.observers = [] := by rw [hnp]
  have hlog : np.completed_rows = [] := by rw [hnp]
  obtain ⟨h1, h2⟩ := row_completed_all_spec np hobs indices
  rw [hlog] at h2
  simp only [List.nil_append] at h2
  exact ⟨h1, h2, by simp [NeedlePositions.completed_row_indices, h2]⟩

/-- Witness for claim C2: on the scenario pattern, completing rows 0, 2, 2,
99 and -1 (repeats and out-of-range indices included) raises nothing and
logs exactly that sequence. -/
theorem row_completed_log_fidelity_witness :
    (⟨[["A", "B"], ["B", "A"]], ⟨["A", "B"], 2⟩, [], []⟩ :
        NeedlePositions String).allCallsOk [0, 2, 2, 99, -1] ∧
    ((⟨[["A", "B"], ["B", "A"]], ⟨["A", "B"], 2⟩, [], []⟩ :
        NeedlePositions String).row_completed_all
          [0, 2, 2, 99, -1]).completed_row_indices =
      [0, 2, 2, 99, -1] := by
  have h := row_completed_log_fidelity [["A", "B"], ["B", "A"]]
    (⟨["A", "B"], 2⟩ : Machine String)
    ⟨[["A", "B"], ["B", "A"]], ⟨["A", "B"], 2⟩, [], []⟩
    [0, 2, 2, 99, -1] rfl
  exact ⟨h.1, h.2.1⟩

/-- When every observer in the list returns normally, the notification loop
calls each of them once, in list order, with the given log and index, and
returns normally. -/
theorem notifyAll_all_ok (obs : List Observer) (log : List Int) (i : Int)
    (pos : Nat) (h : ∀ o ∈ obs, o log i = Except.ok ()) :
    notifyAll obs log i pos =
      ((List.range obs.length).map (fun j => ⟨pos + j, log, i⟩),
        Except.ok ()) := by
  induction obs generalizing pos with
  | nil => simp [notifyAll]
  | cons o rest ih =>
    have ho : o log i = Except.ok () := h o (by simp)
    have hrest := ih (pos + 1) (fun o2 ho2 => h o2 (by simp [ho2]))
    simp only [notifyAll, ho, hrest, List.length_cons,
      List.range_succ_eq_map, List.map_cons, List.map_map]
    congr 1
    congr 1
    apply List.map_congr_left
    intro a _
    have h4 : pos + 1 + a = pos + (a + 1) := by omega
    simp [Function.comp, h4]

/-- Every invocation the notification loop makes passes the given log and
the given index. -/
theorem notifyAll_calls_fixed (obs : List Observer) (log : List Int)
    (i : Int) (pos : Nat) (call : ObserverCall)
    (h : call ∈ (notifyAll obs log i pos).1) :
    call.visible_log = log ∧ call.arg = i := by
  induction obs generalizing pos with
  | nil => simp [notifyAll] at h
  | cons o rest ih =>
    rcases ho : o log i with e | u
    · simp only [notifyAll, ho, List.mem_singleton] at h
      rw [h]
      exact ⟨rfl, rfl⟩
    · rcases u
      simp only [notifyAll, ho, List.mem_cons] at h
      rcases h with h | h
      · rw [h]
        exact ⟨rfl, rfl⟩
      · exact ih (pos + 1) h

/-- When the observers before some failing observer all return normally and
that observer raises, the notification loop propagates exactly that
exception. -/
theorem notifyAll_error (pre : List Observer) (bad : Observer)
    (rest : List Observer) (log : List Int) (i : Int) (pos : Nat)
    (e : String) (hpre : ∀ o ∈ pre, o log i = Except.ok ())
    (hbad : bad log i = Except.error e) :
    (notifyAll (pre ++ bad :: rest) log i pos).2 = Except.error e := by
  induction pre generalizing pos with
  | nil => simp [notifyAll, hbad]
  | cons o pre2 ih =>
    have ho : o log i = Except.ok () := hpre o (by simp)
    simp only [List.cons_append, notifyAll, ho]
    exact ih (pos + 1) (fun o2 ho2 => hpre o2 (by simp [ho2]))

/-- Registering observers one by one appends them, in order, to the observer
list and leaves the completion log untouched. -/
theorem register_all_spec {α : Type} (np : NeedlePositions α)
    (obs : List Observer) :
    (np.register_all obs).observers = np.observers ++ obs ∧
      (np.register_all obs).completed_rows = np.completed_rows := by
  induction obs generalizing np with
  | nil => simp [NeedlePositions.register_all]
  | cons o rest ih =>
    have hrw : np.register_all (o :: rest) =
        (np.on_row_completed o).register_all rest := rfl
    rw [hrw]
    obtain ⟨h1, h2⟩ := ih (np.on_row_completed o)
    refine ⟨?_, h2⟩
    rw [h1]
    simp [NeedlePositions.on_row_completed]

/-- Claim C4: after registering the observers O1, ..., On in order through
`on_row_completed` on a matrix with no prior observers, `row_completed k`
invokes exactly those observers, in registration order, each one receiving
k, and the dispatch completes within the call (the trace is produced by the
call itself, before it returns). Stated under the hypothesis that every
observer returns normally; a raising observer is the subject of the
separate fail-fast claim. -/
theorem row_completed_notifies_in_order {α : Type} (np : NeedlePositions α)
    (obs : List Observer) (k : Int) (hinit : np.observers = [])
    (hok : ∀ o ∈ obs, o (np.completed_rows ++ [k]) k = Except.ok ()) :
    ((np.register_all obs).row_completed k).2.1 =
      (List.range obs.length).map
        (fun j => ⟨j, np.completed_rows ++ [k], k⟩) ∧
      ((np.register_all obs).row_completed k).2.2 = Except.ok () := by
  obtain ⟨h1, h2⟩ := register_all_spec np obs
  rw [hinit] at h1
  simp only [List.nil_append] at h1
  have hrw : ((np.register_all obs).row_completed k).2 =
      notifyAll (np.register_all obs).observers
        ((np.register_all obs).completed_rows ++ [k]) k 0 := rfl
  rw [hrw, h1, h2, notifyAll_all_ok obs (np.completed_rows ++ [k]) k 0 hok]
  exact ⟨by simp, rfl⟩

/-- Witness for claim C4: two observers registered in order on the scenario
matrix are invoked at positions 0 and 1, both receiving index 5 and seeing
the log with 5 recorded. -/
theorem row_completed_notifies_in_order_witness :
    (((⟨[["A", "B"], ["B", "A"]], ⟨["A", "B"], 2⟩, [], []⟩ :
          NeedlePositions String).register_all
        [fun _ _ => Except.ok (), fun _ _ => Except.ok ()]).row_completed
          5).2.1 =
      [⟨0, [5], 5⟩, ⟨1, [5], 5⟩] := by
  have h := row_completed_notifies_in_order
    (⟨[["A", "B"], ["B", "A"]], ⟨["A", "B"], 2⟩, [], []⟩ :
      NeedlePositions String)
    [fun _ _ => Except.ok (), fun _ _ => Except.ok ()] 5 rfl
    (fun o ho => by
      simp at ho
      subst ho
      rfl)
  rw [h.1]
  decide

/-- Claim C5: every observer invocation triggered by `row_completed i` sees
the completion already recorded — the log visible to the callback is the
previous log with i appended, so it contains i; the append happens strictly
before the first observer runs. -/
theorem observer_sees_completion {α : Type} (np : NeedlePositions α)
    (i : Int) (call : ObserverCall)
    (h : call ∈ (np.row_completed i).2.1) :
    call.visible_log = np.completed_rows ++ [i] ∧
      i ∈ call.visible_log := by
  have h2 := notifyAll_calls_fixed np.observers
    (np.completed_rows ++ [i]) i 0 call h
  exact ⟨h2.1, by rw [h2.1]; simp⟩

/-- Witness for claim C5: with one observer and prior log [7], completing
row 3 makes the observer see the log [7, 3], which contains 3. -/
theorem observer_sees_completion_witness :
    (⟨0, [7, 3], 3⟩ : ObserverCall).visible_log = [7] ++ [3] ∧
      (3 : Int) ∈ (⟨0, [7, 3], 3⟩ : ObserverCall).visible_log := by
  have h := observer_sees_completion
    (⟨[], ⟨[], 0⟩, [7], [fun _ _ => Except.ok ()]⟩ : NeedlePositions Nat)
    3 ⟨0, [7, 3], 3⟩ (by decide)
  exact h

/-- Claim C6: when the observers registered before some failing observer
return normally and that observer raises an exception during the dispatch of
`row_completed`, the very same exception propagates to the caller, and the
completed index stays appended to the log (the append is not rolled back).
-/
theorem observer_error_propagates {α : Type} (np : NeedlePositions α)
    (pre : List Observer) (bad : Observer) (rest : List Observer)
    (e : String) (i : Int) (hobs : np.observers = pre ++ bad :: rest)
    (hpre : ∀ o ∈ pre, o (np.completed_rows ++ [i]) i = Except.ok ())
    (hbad : bad (np.completed_rows ++ [i]) i = Except.error e) :
    (np.row_completed i).2.2 = Except.error e ∧
      (np.row_completed i).1.completed_rows = np.completed_rows ++ [i] := by
  have hrw : (np.row_completed i).2.2 =
      (notifyAll np.observers (np.completed_rows ++ [i]) i 0).2 := rfl
  rw [hrw, hobs]
  exact ⟨notifyAll_error pre bad rest (np.completed_rows ++ [i]) i 0 e
    hpre hbad, rfl⟩

/-- Witness for claim C6: a single observer that raises the exception
"boom" makes `row_completed 4` propagate exactly that exception, while 4
stays in the completion log. -/
theorem observer_error_propagates_witness :
    ((⟨[], ⟨[], 0⟩, [],
          [fun _ _ => Except.error "boom"]⟩ :
        NeedlePositions Nat).row_completed 4).2.2 =
      Except.error "boom" ∧
    ((⟨[], ⟨[], 0⟩, [],
          [fun _ _ => Except.error "boom"]⟩ :
        NeedlePositions Nat).row_completed 4).1.completed_rows =
      [] ++ [4] := by
  exact observer_error_propagates
    (⟨[], ⟨[], 0⟩, [], [fun _ _ => Except.error "boom"]⟩ :
      NeedlePositions Nat)
    [] (fun _ _ => Except.error "boom") [] "boom" 4 rfl (by simp) rfl

/-- Claim C7: `get_row` is total (it is a function into rows, never an
exception) and for every matrix, every index value and every caller-supplied
default it returns the stored row when the index is an int with
0 ≤ index < row count, and the default for every other argument: a negative
int, an int at least the row count, or a value of a non-int type. -/
theorem get_row_total_spec {α : Type} (np : NeedlePositions α)
    (d : List α) :
    (∀ (j : Nat) (row : List α), np.rows.get? j = some row →
      np.get_row (PyIndex.int j) d = row) ∧
    (∀ i : Int, i < 0 → np.get_row (PyIndex.int i) d = d) ∧
    (∀ i : Int, (np.rows.length : Int) ≤ i →
      np.get_row (PyIndex.int i) d = d) ∧
    np.get_row PyIndex.notInt d = d := by
  refine ⟨?_, ?_, ?_, rfl⟩
  · intro j row hj
    have hlt : j < np.rows.length := by
      rcases Nat.lt_or_ge j np.rows.length with h | h
      · exact h
      · rw [List.get?_eq_none.mpr h] at hj
        exact absurd hj (by simp)
    simp only [NeedlePositions.get_row]
    rw [if_neg (by omega)]
    rw [List.get?_eq_getElem?] at hj
    simp [hj]
  · intro i hi
    simp only [NeedlePositions.get_row]
    rw [if_pos (Or.inl hi)]
  · intro i hi
    simp only [NeedlePositions.get_row]
    rw [if_pos (Or.inr hi)]

/-- Witness for claim C7: on a 2-row matrix with default [99], index 0
yields the stored row, while -1, 5 and a non-int argument yield the
default. -/
theorem get_row_total_spec_witness :
    (⟨[[10], [20]], ⟨[10, 20], 1⟩, [], []⟩ :
        NeedlePositions Nat).get_row (PyIndex.int 0) [99] = [10] ∧
    (⟨[[10], [20]], ⟨[10, 20], 1⟩, [], []⟩ :
        NeedlePositions Nat).get_row (PyIndex.int (-1)) [99] = [99] ∧
    (⟨[[10], [20]], ⟨[10, 20], 1⟩, [], []⟩ :
        NeedlePositions Nat).get_row (PyIndex.int 5) [99] = [99] ∧
    (⟨[[10], [20]], ⟨[10, 20], 1⟩, [], []⟩ :
        NeedlePositions Nat).get_row PyIndex.notInt [99] = [99] := by
  have h := get_row_total_spec
    (⟨[[10], [20]], ⟨[10, 20], 1⟩, [], []⟩ : NeedlePositions Nat) [99]
  exact ⟨h.1 0 [10] rfl, h.2.1 (-1) (by decide), h.2.2.1 5 (by decide),
    h.2.2.2⟩

/-- Claim C3: for every ColorProgressAdapter and every sequence of
row-completion events on the underlying matrix — out-of-range indices
included, which raise nothing when no other observer is registered —
`progress` is a boolean matrix of exactly the shape of `color_rows`, in
which every cell of row i is true iff the index i occurs in the completion
log of the underlying matrix at the time of the call. -/
theorem progress_shape_and_cells {α β : Type} (ca : ColorAdapter α β)
    (indices : List Int) :
    (ca.row_completed_all indices).progress.length =
      ca.color_rows.length ∧
    (∀ (i : Nat) (row : List β), ca.color_rows.get? i = some row →
      ∃ prow, (ca.row_completed_all indices).progress.get? i = some prow ∧
        prow.length = row.length ∧
        ∀ b ∈ prow, (b = true ↔ (i : Int) ∈
          (ca.row_completed_all
            indices).needle_positions.completed_rows)) ∧
    (ca.needle_positions.observers = [] →
      ca.needle_positions.allCallsOk indices) := by
  have hcr : (ca.row_completed_all indices).color_rows = ca.color_rows :=
    rfl
  refine ⟨?_, ?_, ?_⟩
  · simp [ColorAdapter.progress, hcr]
  · intro i row hi
    refine ⟨row.map (fun _ => decide ((i : Int) ∈
      (ca.row_completed_all indices).needle_positions.completed_rows)),
      ?_, by simp, ?_⟩
    · simp only [ColorAdapter.progress, hcr]
      rw [List.get?_eq_getElem?, List.getElem?_map, List.getElem?_enum]
      rw [List.get?_eq_getElem?] at hi
      rw [hi]
      rfl
    · intro b hb
      rcases List.mem_map.mp hb with ⟨a, _, hab⟩
      rw [← hab]
      simp
  · intro hobs
    exact (row_completed_all_spec ca.needle_positions hobs indices).1

/-- Witness for claim C3: on a 3-row adapter with 4 colors per row,
completing rows 0, 2 and the out-of-range 99 raises nothing and leaves
`progress` with 3 rows, and every cell of row 2 is true since 2 is in the
log. -/
theorem progress_shape_and_cells_witness :
    ((⟨[[1, 1, 1, 1], [2, 2, 2, 2], [3, 3, 3, 3]], ⟨["A"], 4⟩,
        ⟨[["A", "A", "A", "A"], ["A", "A", "A", "A"],
          ["A", "A", "A", "A"]], ⟨["A"], 4⟩, [], []⟩⟩ :
        ColorAdapter String Nat).row_completed_all
          [0, 2, 99]).progress.length = 3 ∧
    (⟨[[1, 1, 1, 1], [2, 2, 2, 2], [3, 3, 3, 3]], ⟨["A"], 4⟩,
        ⟨[["A", "A", "A", "A"], ["A", "A", "A", "A"],
          ["A", "A", "A", "A"]], ⟨["A"], 4⟩, [], []⟩⟩ :
        ColorAdapter String Nat).needle_positions.allCallsOk
      [0, 2, 99] := by
  have h := progress_shape_and_cells
    (⟨[[1, 1, 1, 1], [2, 2, 2, 2], [3, 3, 3, 3]], ⟨["A"], 4⟩,
        ⟨[["A", "A", "A", "A"], ["A", "A", "A", "A"],
          ["A", "A", "A", "A"]], ⟨["A"], 4⟩, [], []⟩⟩ :
      ColorAdapter String Nat) [0, 2, 99]
  exact ⟨h.1, h.2.2 rfl⟩

/-- Two lists of lists have the same shape exactly when their lengths agree
and so do all per-row lengths. -/
theorem map_length_eq_iff {β γ : Type} (cr : List (List β))
    (nr : List (List γ)) :
    cr.map List.length = nr.map List.length ↔
      (cr.length = nr.length ∧ ∀ i : Nat,
        (cr.get? i).map List.length = (nr.get? i).map List.length) := by
  constructor
  · intro h
    constructor
    · have h2 := congrArg List.length h
      simpa using h2
    · intro i
      have h2 := congrArg (fun l => l.get? i) h
      simpa [List.get?_eq_getElem?, List.getElem?_map] using h2
  · rintro ⟨h1, h2⟩
    apply List.ext_get?_iff.mpr
    intro n
    have h3 := h2 n
    simp only [List.get?_eq_getElem?, List.getElem?_map] at h3 ⊢
    exact h3

/-- Claim C8: constructing a ColorProgressAdapter fails (and only with the
shape error) exactly when the shape of `color_rows` differs from the shape
of the needle rows produced by the factory — the row counts differ or some
per-row lengths differ; when the shapes agree, construction succeeds no
matter how the contents differ. -/
theorem color_adapter_construct_shape {α β : Type} (cr : List (List β))
    (m : Machine α) (f : Unit → NeedlePositions α) :
    ((∃ e, ColorAdapter.construct cr m f = Except.error e) ↔
      (cr.length ≠ (f ()).rows.length ∨ ∃ i : Nat,
        (cr.get? i).map List.length ≠
          (((f ()).rows.get? i).map List.length))) ∧
    (∀ e, ColorAdapter.construct cr m f = Except.error e →
      e = AdapterError.shape) ∧
    (cr.map List.length = (f ()).rows.map List.length →
      ColorAdapter.construct cr m f = Except.ok ⟨cr, m, f ()⟩) := by
  by_cases heq : cr.map List.length = (f ()).rows.map List.length
  · have hok : ColorAdapter.construct cr m f = Except.ok ⟨cr, m, f ()⟩ := by
      simp [ColorAdapter.construct, heq]
    obtain ⟨h1, h2⟩ := (map_length_eq_iff cr (f ()).rows).mp heq
    refine ⟨?_, ?_, fun _ => hok⟩
    · constructor
      · rintro ⟨e, he⟩
        exact absurd (hok.symm.trans he) (by simp)
      · rintro (h | ⟨i, hi⟩)
        · exact absurd h1 h
        · exact absurd (h2 i) hi
    · intro e he
      exact absurd (hok.symm.trans he) (by simp)
  · have herr : ColorAdapter.construct cr m f =
        Except.error AdapterError.shape := by
      simp [ColorAdapter.construct, heq]
    refine ⟨?_, ?_, fun h => absurd h heq⟩
    · constructor
      · intro _
        rw [map_length_eq_iff cr (f ()).rows] at heq
        by_cases hlen : cr.length = (f ()).rows.length
        · right
          by_contra hall
          push_neg at hall
          exact heq ⟨hlen, hall⟩
        · exact Or.inl hlen
      · intro _
        exact ⟨AdapterError.shape, herr⟩
    · intro e he
      exact (Except.error.inj (herr.symm.trans he)).symm

/-- Witness for claim C8: 3 color rows against a factory producing 4 needle
rows fail with the shape error (the shapes differ in row count), while a
matching 1-row shape with different contents succeeds. -/
theorem color_adapter_construct_shape_witness :
    ColorAdapter.construct [[1], [2], [3]] (⟨["A"], 1⟩ : Machine String)
      (fun _ => ⟨[["A"], ["A"], ["A"], ["A"]], ⟨["A"], 1⟩, [], []⟩) =
    Except.error AdapterError.shape ∧
    ColorAdapter.construct [[7, 8]] (⟨["A"], 2⟩ : Machine String)
      (fun _ => ⟨[["A", "B"]], ⟨["A"], 2⟩, [], []⟩) =
    Except.ok ⟨[[7, 8]], ⟨["A"], 2⟩, ⟨[["A", "B"]], ⟨["A"], 2⟩, [], []⟩⟩ := by
  constructor
  · obtain ⟨e, he⟩ := (color_adapter_construct_shape [[1], [2], [3]]
      (⟨["A"], 1⟩ : Machine String)
      (fun _ => ⟨[["A"], ["A"], ["A"], ["A"]], ⟨["A"], 1⟩, [], []⟩)).1.mpr
      (Or.inl (by decide))
    rcases e with ⟨⟩
    exact he
  · exact (color_adapter_construct_shape [[7, 8]]
      (⟨["A"], 2⟩ : Machine String)
      (fun _ => ⟨[["A", "B"]], ⟨["A"], 2⟩, [], []⟩)).2.2 (by decide)

/-- Claim C9: for every session state, `current_row` shows the row currently
in progress as signed color codes: one entry per needle position of that
row, the magnitude of each entry identifying the color of the cell and the
sign encoding completion — positive when the cell has been knit, negative
with the same magnitude when it has not. Colors are positive int codes, per
the source docstring. -/
theorem current_row_signed_colors {α χ : Type} (ci : ColorInterface α χ)
    (row : List Int)
    (hrow : ci.color_rows.get? ci.index_of_current_row = some row)
    (hpos : ∀ c ∈ row, 0 < c) :
    ci.current_row.length = row.length ∧
    ∀ (j : Nat) (c : Int), row.get? j = some c →
      ∃ v, ci.current_row.get? j = some v ∧ v.natAbs = c.natAbs ∧
        (0 < v ↔ ci.knit.getD j false) := by
  have hcur : ci.current_row = row.enum.map (fun p =>
      if ci.knit.getD p.1 false then p.2 else -p.2) := by
    rw [ColorInterface.current_row, hrow]
  refine ⟨by simp [hcur], ?_⟩
  intro j c hj
  have hc : c ∈ row := by
    rw [List.get?_eq_getElem?] at hj
    exact List.getElem?_mem hj
  have hcpos : 0 < c := hpos c hc
  refine ⟨if ci.knit.getD j false then c else -c, ?_, ?_, ?_⟩
  · rw [hcur, List.get?_eq_getElem?, List.getElem?_map, List.getElem?_enum]
    rw [List.get?_eq_getElem?] at hj
    rw [hj]
    rfl
  · by_cases hk : ci.knit.getD j false
    · rw [if_pos hk]
    · rw [if_neg hk]
      exact Int.natAbs_neg c
  · by_cases hk : ci.knit.getD j false
    · rw [if_pos hk]
      exact ⟨fun _ => hk, fun _ => hcpos⟩
    · rw [if_neg hk]
      exact ⟨fun h => absurd hcpos (by omega), fun h => absurd h hk⟩

/-- Witness for claim C9: with current row [3, 4] and knit state
[true, false], the second entry of `current_row` is a value of magnitude 4
that is not positive — the cell is not yet knit. -/
theorem current_row_signed_colors_witness :
    (⟨⟨[], 0⟩, [[1, 2], [3, 4]], (), 1, [true, false]⟩ :
        ColorInterface Nat Unit).current_row.length = 2 ∧
    ∃ v, (⟨⟨[], 0⟩, [[1, 2], [3, 4]], (), 1, [true, false]⟩ :
        ColorInterface Nat Unit).current_row.get? 1 = some v ∧
      v.natAbs = (4 : Int).natAbs ∧
      (0 < v ↔ ([true, false].getD 1 false)) := by
  have h := current_row_signed_colors
    (⟨⟨[], 0⟩, [[1, 2], [3, 4]], (), 1, [true, false]⟩ :
      ColorInterface Nat Unit) [3, 4] rfl (by decide)
  exact ⟨h.1, h.2 1 4 rfl⟩

end AYAB
